import Mathlib

/-! Verification of the `TernarySearchTree` class of `ternary_search_tree.py`.

Python strings are modelled as `List Char`; a Python node reference that may
be `None` is modelled by the inductive `Tree`, whose `leaf` constructor is
`None` and whose `node` constructor carries the fields `char`, `end_of_word`,
`_ls`, `_eq`, `_gt` of the Python `Node` class.  Arbitrary Python values
passed to the duck-typed methods are modelled by `PyVal`, and code paths that
raise are modelled with `Except PyErr`.
-/

namespace TST

/-- A Python `Node` reference: `leaf` is `None`, `node ch eow ls eq gt` is a
`Node` with `char = ch`, `end_of_word = eow` and children `_ls = ls`,
`_eq = eq`, `_gt = gt`. -/
inductive Tree where
  | leaf : Tree
  | node : Char → Bool → Tree → Tree → Tree → Tree
deriving DecidableEq, Repr

/-- The `TernarySearchTree` object: fields `root`, `word_count` (a Python
integer) and `words_list` set up by `__init__`. -/
structure TernarySearchTree where
  root : Tree
  word_count : Int
  words_list : List (List Char)
deriving DecidableEq, Repr

/-- Constructor `__init__`: empty root, zero count, empty word list. -/
def init : TernarySearchTree := ⟨Tree.leaf, 0, []⟩

/-- Method `insert_character(self, node, word, index)`, with `word[index]`
passed as `c` and the remaining characters `word[index+1:]` passed as `rest`
(so `index + 1 == len(word)` becomes `rest = []`).  When `node is None` a
fresh `Node(char)` is created and, the comparison then being an equality, the
code either marks it terminal or recurses into its (empty) middle child. -/
def insert_character : Tree → Char → List Char → Tree
  | Tree.leaf, c, [] => Tree.node c true Tree.leaf Tree.leaf Tree.leaf
  | Tree.leaf, c, r :: rs =>
      Tree.node c false Tree.leaf (insert_character Tree.leaf r rs) Tree.leaf
  | Tree.node ch eow ls eq gt, c, rest =>
      if c < ch then Tree.node ch eow (insert_character ls c rest) eq gt
      else if ch < c then Tree.node ch eow ls eq (insert_character gt c rest)
      else
        match rest with
        | [] => Tree.node ch true ls eq gt
        | r :: rs => Tree.node ch eow ls (insert_character eq r rs) gt
termination_by t _ rest => (rest.length, sizeOf t)

/-- Method `insert(self, word)`: appends the word to `words_list` and bumps
`word_count` when it is new, returns before touching the tree when the word
is the empty string, and otherwise reassigns `root`. -/
def insert (t : TernarySearchTree) (word : List Char) : TernarySearchTree :=
  let t1 :=
    if word ∈ t.words_list then t
    else { t with words_list := t.words_list ++ [word],
                  word_count := t.word_count + 1 }
  match word with
  | [] => t1
  | c :: rest => { t1 with root := insert_character t1.root c rest }

/-- Folding `insert` over a list of words (a caller doing repeated inserts). -/
def insertList (t : TernarySearchTree) (ws : List (List Char)) :
    TernarySearchTree :=
  ws.foldl insert t

/-- Method `search_helper(self, node, word, index)`, with the same
`(word[index], word[index+1:])` passing convention as `insert_character`;
returns the node reached by the last character, `none` when absent. -/
def search_helper : Tree → Char → List Char → Option Tree
  | Tree.leaf, _, _ => none
  | Tree.node ch eow ls eq gt, c, rest =>
      if c < ch then search_helper ls c rest
      else if ch < c then search_helper gt c rest
      else
        match rest with
        | [] => some (Tree.node ch eow ls eq gt)
        | r :: rs => search_helper eq r rs

/-- Method `search(self, word, exact=False)` for a string argument: false on
the empty string, otherwise true exactly when `search_helper` finds a node.
The `exact` parameter is received but never read by the body. -/
def search (t : TernarySearchTree) (word : List Char) (exact : Bool) : Bool :=
  match word with
  | [] => false
  | c :: rest => (search_helper t.root c rest).isSome

/-- Method `is_empty(self)`: whether `root is None`. -/
def is_empty (t : TernarySearchTree) : Bool :=
  match t.root with
  | Tree.leaf => true
  | _ => false

/-- Method `clear(self)`: resets `root` and `word_count`, leaves
`words_list`. -/
def clear (t : TernarySearchTree) : TernarySearchTree :=
  { t with root := Tree.leaf, word_count := 0 }

/-- Method `all_strings(self)`: returns `words_list`. -/
def all_strings (t : TernarySearchTree) : List (List Char) :=
  t.words_list

/-- Method `__len__(self)`: returns `word_count`. -/
def len (t : TernarySearchTree) : Int :=
  t.word_count

/-- Python `str.lower()`, per character (ASCII case folding as in
`Char.toLower`). -/
def pyLower (w : List Char) : List Char :=
  w.map Char.toLower

/-- Python `str.strip()`: removes whitespace from both ends. -/
def pyStrip (w : List Char) : List Char :=
  ((w.dropWhile Char.isWhitespace).reverse.dropWhile Char.isWhitespace).reverse

/-- Exceptions the modelled methods can raise. -/
inductive PyErr where
  | typeError : PyErr
  | attributeError : PyErr
  | indexError : PyErr
deriving DecidableEq, Repr

/-- A Python value handed to a duck-typed method: a string, an integer, or
`None`. -/
inductive PyVal where
  | str : List Char → PyVal
  | intv : Int → PyVal
  | pynone : PyVal
deriving DecidableEq, Repr

/-- Method `delete(self, word)` as written in the source: the
`isinstance`/emptiness guards return `False`, the argument is lower-cased and
stripped, a whitespace-only argument returns `False`, and any other string
reaches `self._contains(word)` — an attribute the class never defines — so
Python raises `AttributeError` there. -/
def delete (t : TernarySearchTree) (x : PyVal) :
    Except PyErr (TernarySearchTree × Bool) :=
  match x with
  | PyVal.str w =>
      if w = [] then Except.ok (t, false)
      else
        let w2 := pyStrip (pyLower w)
        if w2 = [] then Except.ok (t, false)
        else Except.error PyErr.attributeError
  | _ => Except.ok (t, false)

/-- Method `_delete_recursive(self, node, word, index)` with the
`(word[index], word[index+1:])` convention: unmark the terminal flag at the
word end, recurse along the comparison path, then prune the node when it is
non-terminal with three absent children. -/
def delete_recursive : Tree → Char → List Char → Tree
  | Tree.leaf, _, _ => Tree.leaf
  | Tree.node ch eow ls eq gt, c, rest =>
      let n :=
        if c < ch then Tree.node ch eow (delete_recursive ls c rest) eq gt
        else if ch < c then Tree.node ch eow ls eq (delete_recursive gt c rest)
        else
          match rest with
          | [] => Tree.node ch false ls eq gt
          | r :: rs => Tree.node ch eow ls (delete_recursive eq r rs) gt
      match n with
      | Tree.node _ false Tree.leaf Tree.leaf Tree.leaf => Tree.leaf
      | _ => n

/-- Modelled from the spec: the repository's `delete` calls
`self._contains(word)` but no `_contains` method exists anywhere in the
repository.  Per the spec, delete "returns false immediately if the word
(post-normalization) is not present", presence meaning the word is stored as
a complete word, i.e. the search walk ends at a node whose terminal flag is
set. -/
def containsSpec (t : Tree) (word : List Char) : Bool :=
  match word with
  | [] => false
  | c :: rest =>
      match search_helper t c rest with
      | some (Tree.node _ eow _ _ _) => eow
      | _ => false

/-- Modelled from the spec: `delete` with the missing `_contains` replaced by
`containsSpec`; everything else follows the source line by line (normalize,
return false on empty or absent, otherwise `_delete_recursive`, decrement
`word_count`, return true). -/
def deleteModelled (t : TernarySearchTree) (word : List Char) :
    TernarySearchTree × Bool :=
  if word = [] then (t, false)
  else
    let w := pyStrip (pyLower word)
    if w = [] then (t, false)
    else if containsSpec t.root w then
      match w with
      | [] => (t, false)
      | c :: rest =>
          ({ t with root := delete_recursive t.root c rest,
                    word_count := t.word_count - 1 }, true)
    else (t, false)

/-- Python `word[index]` for an arbitrary value: in-range character of a
string, `IndexError` past the end, `TypeError` for a non-subscriptable
value. -/
def pyGetItem (x : PyVal) (i : Nat) : Except PyErr Char :=
  match x with
  | PyVal.str s =>
      match s.get? i with
      | some c => Except.ok c
      | none => Except.error PyErr.indexError
  | _ => Except.error PyErr.typeError

/-- Python `len(word)` for an arbitrary value: length of a string,
`TypeError` otherwise. -/
def pyLenE : PyVal → Except PyErr Nat
  | PyVal.str s => Except.ok s.length
  | _ => Except.error PyErr.typeError

/-- Method `search_helper` on an arbitrary Python value, index-passing as in
the source: `word[index]` is evaluated first at each node, so a non-string
argument raises `TypeError` as soon as a node is present. -/
def search_helperPy : Tree → PyVal → Nat → Except PyErr (Option Tree)
  | Tree.leaf, _, _ => Except.ok none
  | Tree.node ch eow ls eq gt, w, i =>
      match pyGetItem w i with
      | Except.error e => Except.error e
      | Except.ok c =>
          if c < ch then search_helperPy ls w i
          else if ch < c then search_helperPy gt w i
          else
            match pyLenE w with
            | Except.error e => Except.error e
            | Except.ok n =>
                if i + 1 = n then Except.ok (some (Tree.node ch eow ls eq gt))
                else search_helperPy eq w (i + 1)

/-- Method `search(self, word, exact=False)` on an arbitrary Python value:
`word == ''` is false for non-strings, after which `search_helper` indexes
the argument. -/
def searchPy (t : TernarySearchTree) (x : PyVal) (exact : Bool) :
    Except PyErr Bool :=
  if x = PyVal.str [] then Except.ok false
  else
    match search_helperPy t.root x 0 with
    | Except.error e => Except.error e
    | Except.ok n => Except.ok n.isSome

/-- Insertion seen at the node level: what `insert` does to `root`. -/
def insertTree (t : Tree) (w : List Char) : Tree :=
  match w with
  | [] => t
  | c :: rest => insert_character t c rest

/-- Search seen at the node level: what `search` computes from `root`. -/
def foundTree (t : Tree) (w : List Char) : Bool :=
  match w with
  | [] => false
  | c :: rest => (search_helper t c rest).isSome

end TST

namespace TST

/-- Unfolding `insert_character` at a node whose character is larger. -/
theorem insert_character_lt {ch : Char} {eow : Bool} {ls eq gt : Tree}
    {c : Char} (rest : List Char) (h : c < ch) :
    insert_character (Tree.node ch eow ls eq gt) c rest
      = Tree.node ch eow (insert_character ls c rest) eq gt := by
  rw [insert_character.eq_def]; simp [h]

/-- Unfolding `insert_character` at a node whose character is smaller. -/
theorem insert_character_gt {ch : Char} {eow : Bool} {ls eq gt : Tree}
    {c : Char} (rest : List Char) (h1 : ¬ c < ch) (h2 : ch < c) :
    insert_character (Tree.node ch eow ls eq gt) c rest
      = Tree.node ch eow ls eq (insert_character gt c rest) := by
  rw [insert_character.eq_def]; simp [h1, h2]

/-- Unfolding `insert_character` at a matching node on the last character. -/
theorem insert_character_eq_nil {ch : Char} {eow : Bool} {ls eq gt : Tree}
    {c : Char} (h1 : ¬ c < ch) (h2 : ¬ ch < c) :
    insert_character (Tree.node ch eow ls eq gt) c []
      = Tree.node ch true ls eq gt := by
  rw [insert_character.eq_def]; simp [h1, h2]

/-- Unfolding `insert_character` at a matching node before the last
character. -/
theorem insert_character_eq_cons {ch : Char} {eow : Bool} {ls eq gt : Tree}
    {c r : Char} (rs : List Char) (h1 : ¬ c < ch) (h2 : ¬ ch < c) :
    insert_character (Tree.node ch eow ls eq gt) c (r :: rs)
      = Tree.node ch eow ls (insert_character eq r rs) gt := by
  rw [insert_character.eq_def]; simp [h1, h2]

/-- Unfolding `insert_character` on an absent node at the last character. -/
theorem insert_character_leaf_nil (c : Char) :
    insert_character Tree.leaf c []
      = Tree.node c true Tree.leaf Tree.leaf Tree.leaf := by
  rw [insert_character.eq_def]

/-- Unfolding `insert_character` on an absent node before the last
character. -/
theorem insert_character_leaf_cons (c r : Char) (rs : List Char) :
    insert_character Tree.leaf c (r :: rs)
      = Tree.node c false Tree.leaf (insert_character Tree.leaf r rs)
          Tree.leaf := by
  rw [insert_character.eq_def]

/-- Unfolding `insert_character` on a present node, all comparison branches
kept. -/
theorem insert_character_node (ch : Char) (eow : Bool) (ls eq gt : Tree)
    (c : Char) (rest : List Char) :
    insert_character (Tree.node ch eow ls eq gt) c rest
      = if c < ch then Tree.node ch eow (insert_character ls c rest) eq gt
        else if ch < c then
          Tree.node ch eow ls eq (insert_character gt c rest)
        else
          match rest with
          | [] => Tree.node ch true ls eq gt
          | r :: rs => Tree.node ch eow ls (insert_character eq r rs) gt := by
  rw [insert_character.eq_def]

/-- After inserting a word, every walk along one of its front parts reaches a
node. -/
theorem search_helper_insert_found (t : Tree) (c : Char) (rest : List Char) :
    ∀ pr : List Char, pr <+: rest →
      (search_helper (insert_character t c rest) c pr).isSome = true := by
  induction t, c, rest using insert_character.induct with
  | case1 c =>
      intro pr hpr
      have h0 : pr = [] := List.prefix_nil.mp hpr
      subst h0
      simp [insert_character, search_helper]
  | case2 c r rs ih =>
      intro pr hpr
      cases pr with
      | nil => simp [insert_character, search_helper]
      | cons p ps =>
          obtain ⟨rfl, hps⟩ := List.cons_prefix_cons.mp hpr
          simpa [insert_character, search_helper] using ih ps hps
  | case3 ch eow ls eq gt c rest hlt ih =>
      intro pr hpr
      rw [insert_character_lt rest hlt]
      simpa [search_helper, hlt] using ih pr hpr
  | case4 ch eow ls eq gt c rest hnlt hgt ih =>
      intro pr hpr
      rw [insert_character_gt rest hnlt hgt]
      simpa [search_helper, hnlt, hgt] using ih pr hpr
  | case5 ch eow ls eq gt c hnlt hngt =>
      intro pr hpr
      have h0 : pr = [] := List.prefix_nil.mp hpr
      subst h0
      rw [insert_character_eq_nil hnlt hngt]
      simp [search_helper, hnlt, hngt]
  | case6 ch eow ls eq gt c hnlt hngt r rs ih =>
      intro pr hpr
      rw [insert_character_eq_cons rs hnlt hngt]
      cases pr with
      | nil => simp [search_helper, hnlt, hngt]
      | cons p ps =>
          obtain ⟨rfl, hps⟩ := List.cons_prefix_cons.mp hpr
          simpa [search_helper, hnlt, hngt] using ih ps hps

/-- Insertion never removes nodes: any walk that reached a node still reaches
one afterwards. -/
theorem search_helper_insert_mono (t : Tree) (c : Char) (rest : List Char) :
    ∀ (q : Char) (qr : List Char),
      (search_helper t q qr).isSome = true →
      (search_helper (insert_character t c rest) q qr).isSome = true := by
  induction t, c, rest using insert_character.induct with
  | case1 c => intro q qr h; simp [search_helper] at h
  | case2 c r rs ih => intro q qr h; simp [search_helper] at h
  | case3 ch eow ls eq gt c rest hlt ih =>
      intro q qr h
      rw [insert_character_lt rest hlt]
      rcases lt_trichotomy q ch with hq | hq | hq
      · simp only [search_helper, if_pos hq] at h ⊢
        exact ih q qr h
      · subst hq
        cases qr with
        | nil => simp [search_helper]
        | cons p ps => simpa [search_helper] using h
      · have h1 : ¬ q < ch := lt_asymm hq
        simpa [search_helper, h1, hq] using h
  | case4 ch eow ls eq gt c rest hnlt hgt ih =>
      intro q qr h
      rw [insert_character_gt rest hnlt hgt]
      rcases lt_trichotomy q ch with hq | hq | hq
      · simpa [search_helper, hq] using h
      · subst hq
        cases qr with
        | nil => simp [search_helper]
        | cons p ps => simpa [search_helper] using h
      · have h1 : ¬ q < ch := lt_asymm hq
        simp only [search_helper, if_neg h1, if_pos hq] at h ⊢
        exact ih q qr h
  | case5 ch eow ls eq gt c hnlt hngt =>
      intro q qr h
      rw [insert_character_eq_nil hnlt hngt]
      rcases lt_trichotomy q ch with hq | hq | hq
      · simpa [search_helper, hq] using h
      · subst hq
        cases qr with
        | nil => simp [search_helper]
        | cons p ps => simpa [search_helper] using h
      · have h1 : ¬ q < ch := lt_asymm hq
        simpa [search_helper, h1, hq] using h
  | case6 ch eow ls eq gt c hnlt hngt r rs ih =>
      intro q qr h
      rw [insert_character_eq_cons rs hnlt hngt]
      rcases lt_trichotomy q ch with hq | hq | hq
      · simpa [search_helper, hq] using h
      · subst hq
        cases qr with
        | nil => simp [search_helper]
        | cons p ps =>
            simp only [search_helper, lt_irrefl, if_neg (lt_irrefl _)] at h ⊢
            exact ih p ps h
      · have h1 : ¬ q < ch := lt_asymm hq
        simpa [search_helper, h1, hq] using h

/-- Insertion adds no walks other than the front parts of the inserted
word. -/
theorem search_helper_insert_sub (t : Tree) (c : Char) (rest : List Char) :
    ∀ (q : Char) (qr : List Char),
      (search_helper (insert_character t c rest) q qr).isSome = true →
      (search_helper t q qr).isSome = true ∨ (q :: qr) <+: (c :: rest) := by
  induction t, c, rest using insert_character.induct with
  | case1 c =>
      intro q qr h
      simp only [insert_character] at h
      rcases lt_trichotomy q c with hq | hq | hq
      · simp [search_helper, hq] at h
      · subst hq
        cases qr with
        | nil => exact Or.inr (List.prefix_refl _)
        | cons p ps => simp [search_helper] at h
      · have h1 : ¬ q < c := lt_asymm hq
        simp [search_helper, h1, hq] at h
  | case2 c r rs ih =>
      intro q qr h
      simp only [insert_character] at h
      rcases lt_trichotomy q c with hq | hq | hq
      · simp [search_helper, hq] at h
      · subst hq
        cases qr with
        | nil =>
            exact Or.inr (List.cons_prefix_cons.mpr ⟨rfl, List.nil_prefix⟩)
        | cons p ps =>
            simp only [search_helper, lt_irrefl, if_neg (lt_irrefl _)] at h
            rcases ih p ps h with h2 | h2
            · simp [search_helper] at h2
            · exact Or.inr (List.cons_prefix_cons.mpr ⟨rfl, h2⟩)
      · have h1 : ¬ q < c := lt_asymm hq
        simp [search_helper, h1, hq] at h
  | case3 ch eow ls eq gt c rest hlt ih =>
      intro q qr h
      rw [insert_character_lt rest hlt] at h
      rcases lt_trichotomy q ch with hq | hq | hq
      · simp only [search_helper, if_pos hq] at h ⊢
        rcases ih q qr h with h2 | h2
        · exact Or.inl h2
        · exact Or.inr h2
      · subst hq
        cases qr with
        | nil => left; simp [search_helper]
        | cons p ps => left; simpa [search_helper] using h
      · have h1 : ¬ q < ch := lt_asymm hq
        left; simpa [search_helper, h1, hq] using h
  | case4 ch eow ls eq gt c rest hnlt hgt ih =>
      intro q qr h
      rw [insert_character_gt rest hnlt hgt] at h
      rcases lt_trichotomy q ch with hq | hq | hq
      · left; simpa [search_helper, hq] using h
      · subst hq
        cases qr with
        | nil => left; simp [search_helper]
        | cons p ps => left; simpa [search_helper] using h
      · have h1 : ¬ q < ch := lt_asymm hq
        simp only [search_helper, if_neg h1, if_pos hq] at h ⊢
        rcases ih q qr h with h2 | h2
        · exact Or.inl h2
        · exact Or.inr h2
  | case5 ch eow ls eq gt c hnlt hngt =>
      intro q qr h
      rw [insert_character_eq_nil hnlt hngt] at h
      rcases lt_trichotomy q ch with hq | hq | hq
      · left; simpa [search_helper, hq] using h
      · subst hq
        cases qr with
        | nil => left; simp [search_helper]
        | cons p ps => left; simpa [search_helper] using h
      · have h1 : ¬ q < ch := lt_asymm hq
        left; simpa [search_helper, h1, hq] using h
  | case6 ch eow ls eq gt c hnlt hngt r rs ih =>
      intro q qr h
      have hceq : c = ch := le_antisymm (not_lt.mp hngt) (not_lt.mp hnlt)
      rw [insert_character_eq_cons rs hnlt hngt] at h
      rcases lt_trichotomy q ch with hq | hq | hq
      · left; simpa [search_helper, hq] using h
      · subst hq
        cases qr with
        | nil => left; simp [search_helper]
        | cons p ps =>
            simp only [search_helper, lt_irrefl, if_neg (lt_irrefl _)] at h ⊢
            rcases ih p ps h with h2 | h2
            · exact Or.inl h2
            · subst hceq
              exact Or.inr (List.cons_prefix_cons.mpr ⟨rfl, h2⟩)
      · have h1 : ¬ q < ch := lt_asymm hq
        left; simpa [search_helper, h1, hq] using h

end TST

namespace TST

/-- Node-level search after a node-level insertion: a word is findable afterwards
exactly when it was findable before or is a non-empty front part of the
inserted word. -/
theorem foundTree_insertTree (t : Tree) (w q : List Char) :
    foundTree (insertTree t w) q = true ↔
      foundTree t q = true ∨ (q ≠ [] ∧ q <+: w) := by
  cases w with
  | nil =>
      cases q with
      | nil => simp [insertTree, foundTree]
      | cons qc qr => simp [insertTree, foundTree, List.prefix_nil]
  | cons c rest =>
      cases q with
      | nil => simp [foundTree]
      | cons qc qr =>
          simp only [insertTree, foundTree, ne_eq, reduceCtorEq, not_false_iff,
            true_and]
          constructor
          · intro h
            rcases search_helper_insert_sub t c rest qc qr h with h2 | h2
            · exact Or.inl h2
            · exact Or.inr h2
          · intro h
            rcases h with h2 | h2
            · exact search_helper_insert_mono t c rest qc qr h2
            · obtain ⟨rfl, hqr⟩ := List.cons_prefix_cons.mp h2
              exact search_helper_insert_found t qc rest qr hqr

/-- Node-level search after a sequence of node-level insertions. -/
theorem foundTree_foldl (ws : List (List Char)) :
    ∀ (t : Tree) (q : List Char),
      foundTree (ws.foldl insertTree t) q = true ↔
        foundTree t q = true ∨ ∃ w ∈ ws, q ≠ [] ∧ q <+: w := by
  induction ws with
  | nil => intro t q; simp
  | cons w ws ih =>
      intro t q
      rw [List.foldl_cons, ih, foundTree_insertTree]
      constructor
      · rintro ((h | h) | ⟨v, hv, h⟩)
        · exact Or.inl h
        · exact Or.inr ⟨w, List.mem_cons_self _ _, h⟩
        · exact Or.inr ⟨v, List.mem_cons_of_mem _ hv, h⟩
      · rintro (h | ⟨v, hv, h⟩)
        · exact Or.inl (Or.inl h)
        · rcases List.mem_cons.mp hv with rfl | hv2
          · exact Or.inl (Or.inr h)
          · exact Or.inr ⟨v, hv2, h⟩

/-- The `root` field after `insert`. -/
theorem insert_root (t : TernarySearchTree) (w : List Char) :
    (insert t w).root = insertTree t.root w := by
  cases w with
  | nil => simp only [insert, insertTree]; split <;> rfl
  | cons c rest => simp only [insert, insertTree]; split <;> rfl

/-- The `words_list` field after `insert`. -/
theorem insert_words_list (t : TernarySearchTree) (w : List Char) :
    (insert t w).words_list =
      if w ∈ t.words_list then t.words_list else t.words_list ++ [w] := by
  cases w with
  | nil => simp only [insert]; split <;> simp_all
  | cons c rest => simp only [insert]; split <;> simp_all

/-- The `word_count` field after `insert`. -/
theorem insert_word_count (t : TernarySearchTree) (w : List Char) :
    (insert t w).word_count =
      if w ∈ t.words_list then t.word_count else t.word_count + 1 := by
  cases w with
  | nil => simp only [insert]; split <;> simp_all
  | cons c rest => simp only [insert]; split <;> simp_all

/-- The `root` field after a sequence of inserts. -/
theorem insertList_root (ws : List (List Char)) :
    ∀ t : TernarySearchTree,
      (insertList t ws).root = ws.foldl insertTree t.root := by
  induction ws with
  | nil => intro t; rfl
  | cons w ws ih =>
      intro t
      show (insertList (insert t w) ws).root = _
      rw [ih, List.foldl_cons, insert_root]

/-- The method `search` only looks at the `root` field, never at `exact`. -/
theorem search_eq_foundTree (t : TernarySearchTree) (w : List Char)
    (ex : Bool) : search t w ex = foundTree t.root w := by
  cases w <;> rfl

/-- No walk succeeds on an absent root. -/
theorem foundTree_leaf (w : List Char) : foundTree Tree.leaf w = false := by
  cases w <;> rfl

/-- Characterization of `search` on a tree built by inserting a list of words
into a fresh tree: it succeeds exactly on the non-empty front parts of the
inserted words, for either value of `exact`. -/
theorem search_insertList_init (ws : List (List Char)) (w : List Char)
    (ex : Bool) :
    search (insertList init ws) w ex = true ↔
      ∃ v ∈ ws, w ≠ [] ∧ w <+: v := by
  rw [search_eq_foundTree, insertList_root]
  show foundTree (ws.foldl insertTree Tree.leaf) w = true ↔ _
  rw [foundTree_foldl, foundTree_leaf]
  simp

/-- Membership in `words_list` after a sequence of inserts. -/
theorem mem_insertList_words (ws : List (List Char)) :
    ∀ (t : TernarySearchTree) (x : List Char),
      x ∈ (insertList t ws).words_list ↔ x ∈ t.words_list ∨ x ∈ ws := by
  induction ws with
  | nil => intro t x; simp [insertList]
  | cons w ws ih =>
      intro t x
      show x ∈ (insertList (insert t w) ws).words_list ↔ _
      rw [ih, insert_words_list]
      by_cases hw : w ∈ t.words_list
      · simp only [if_pos hw, List.mem_cons]
        constructor
        · rintro (h | h)
          · exact Or.inl h
          · exact Or.inr (Or.inr h)
        · rintro (h | rfl | h)
          · exact Or.inl h
          · exact Or.inl hw
          · exact Or.inr h
      · simp only [if_neg hw, List.mem_append, List.mem_singleton,
          List.mem_cons]
        tauto

/-- The words list never holds a word twice. -/
theorem nodup_insertList (ws : List (List Char)) :
    ∀ t : TernarySearchTree, t.words_list.Nodup →
      (insertList t ws).words_list.Nodup := by
  induction ws with
  | nil => intro t h; exact h
  | cons w ws ih =>
      intro t h
      show ((insertList (insert t w) ws).words_list).Nodup
      apply ih
      rw [insert_words_list]
      by_cases hw : w ∈ t.words_list
      · simpa [if_pos hw] using h
      · rw [if_neg hw]
        simp [List.nodup_append, h, hw]

/-- The counter stays synchronized with the length of the words list under
inserts. -/
theorem count_insertList (ws : List (List Char)) :
    ∀ t : TernarySearchTree,
      t.word_count = (t.words_list.length : Int) →
        (insertList t ws).word_count =
          ((insertList t ws).words_list.length : Int) := by
  induction ws with
  | nil => intro t h; exact h
  | cons w ws ih =>
      intro t h
      show (insertList (insert t w) ws).word_count = _
      apply ih
      rw [insert_words_list, insert_word_count]
      by_cases hw : w ∈ t.words_list
      · simpa [if_pos hw] using h
      · rw [if_neg hw, if_neg hw]
        simp [h]

/-- Lower-casing keeps a whitespace character whitespace. -/
theorem toLower_whitespace (c : Char) (h : c.isWhitespace = true) :
    (Char.toLower c).isWhitespace = true := by
  simp [Char.isWhitespace] at h
  rcases h with ((rfl | rfl) | rfl) | rfl <;> decide

/-- A whitespace-only string normalizes to the empty string. -/
theorem pyStrip_pyLower_whitespace (s : List Char)
    (h : ∀ c ∈ s, c.isWhitespace = true) :
    pyStrip (pyLower s) = [] := by
  have h2 : ∀ c ∈ pyLower s, c.isWhitespace = true := by
    intro c hc
    rw [pyLower, List.mem_map] at hc
    obtain ⟨a, ha, rfl⟩ := hc
    exact toLower_whitespace a (h a ha)
  rw [pyStrip, List.dropWhile_eq_nil_iff.mpr h2]
  rfl

end TST

namespace TST

/-- Claim C1 (code bug): the spec says `Delete(w)` returns a boolean without
raising for every non-empty string, but the source's `delete` reaches
`self._contains(word)` — a method the class never defines — for any word that
is non-empty after lower-casing and stripping, so Python raises
`AttributeError`; here evaluated on a tree holding "cat" when deleting
"cat". -/
theorem claim_c1_delete_raises :
    delete (insertList init [['c', 'a', 't']]) (PyVal.str ['c', 'a', 't'])
      = Except.error PyErr.attributeError := by
  rfl

/-- Claim C2 (code bug): the spec says `Search(p, exact=true)` requires p to
end at a terminal node, but the source's `search` never reads `exact` or
`end_of_word`: after inserting "apple" and "application", the pure prefix
"appli" — which ends at a non-terminal node, as the `containsSpec` conjunct
shows — is reported found by `Search("appli", exact=true)`, where the claim
and the repository's own test `test_search_for_prefixes` say false. -/
theorem claim_c2_exact_flag_ignored :
    search
        (insertList init
          [['a', 'p', 'p', 'l', 'e'],
           ['a', 'p', 'p', 'l', 'i', 'c', 'a', 't', 'i', 'o', 'n']])
        ['a', 'p', 'p', 'l', 'i'] true = true
    ∧ containsSpec
        (insertList init
          [['a', 'p', 'p', 'l', 'e'],
           ['a', 'p', 'p', 'l', 'i', 'c', 'a', 't', 'i', 'o', 'n']]).root
        ['a', 'p', 'p', 'l', 'i'] = false := by
  constructor <;>
    simp [insertList, insert, init, search, search_helper, containsSpec,
      insert_character_leaf_nil, insert_character_leaf_cons,
      insert_character_node]

/-- Claim C3, counterexample: `Insert('')` is not a no-op on a fresh tree —
it changes `Count()` (to 1, despite zero non-empty words being present) and
appends the empty string to `AllWords()`. -/
theorem claim_c3_counterexample :
    ¬ ((insert init []).word_count = init.word_count
       ∧ (insert init []).words_list = init.words_list) := by
  decide

/-- Claim C3 as amended: in any state reachable from a fresh tree by inserts,
`Count()` equals the length of `AllWords()`, which lists every distinct
inserted word — the empty string included, if inserted — exactly once;
`Insert('')` never changes the tree's nodes, but its first call appends `''`
to `AllWords()` and increments `Count()` by one. -/
theorem claim_c3_amended (ws : List (List Char)) :
    (insertList init ws).word_count
        = ((insertList init ws).words_list.length : Int)
    ∧ (insertList init ws).words_list.Nodup
    ∧ (∀ w, w ∈ (insertList init ws).words_list ↔ w ∈ ws)
    ∧ (insert (insertList init ws) []).root = (insertList init ws).root
    ∧ ([] ∉ (insertList init ws).words_list →
        (insert (insertList init ws) []).word_count
            = (insertList init ws).word_count + 1
        ∧ (insert (insertList init ws) []).words_list
            = (insertList init ws).words_list ++ [[]]) := by
  refine ⟨count_insertList ws init (by simp [init]),
    nodup_insertList ws init (by simp [init]), ?_, ?_, ?_⟩
  · intro w
    rw [mem_insertList_words]
    simp [init]
  · rw [insert_root]
    rfl
  · intro hnm
    rw [insert_word_count, insert_words_list, if_neg hnm, if_neg hnm]
    exact ⟨rfl, rfl⟩

/-- Claim C3 amended, witness at the concrete insert sequence ["a"]. -/
theorem claim_c3_amended_witness :
    (insert (insertList init [['a']]) []).word_count
      = (insertList init [['a']]).word_count + 1 :=
  ((claim_c3_amended [['a']]).2.2.2.2 (by decide)).1

/-- Claim C4, counterexample: on a populated tree, `Search` with the
non-string argument `123` indexes it and raises `TypeError` instead of
returning false. -/
theorem claim_c4_counterexample :
    searchPy (insert init ['a']) (PyVal.intv 123) false
      = Except.error PyErr.typeError := by
  simp [insert, init, insert_character_leaf_nil, searchPy, search_helperPy,
    pyGetItem]

/-- Claim C4 as amended: `Search` with a non-string argument returns false
without raising only while the tree is empty; as soon as the root is present
the code evaluates `word[index]` on the argument and raises `TypeError`. -/
theorem claim_c4_amended (t : TernarySearchTree) (x : PyVal) (ex : Bool)
    (hx : ∀ s, x ≠ PyVal.str s) :
    (t.root = Tree.leaf → searchPy t x ex = Except.ok false)
    ∧ (t.root ≠ Tree.leaf → searchPy t x ex = Except.error PyErr.typeError) := by
  have hne : x ≠ PyVal.str [] := hx []
  constructor
  · intro hr
    rw [searchPy, if_neg hne, hr]
    rfl
  · intro hr
    rw [searchPy, if_neg hne]
    cases ht : t.root with
    | leaf => exact absurd ht hr
    | node ch eow ls eq gt =>
        cases x with
        | str s => exact absurd rfl (hx s)
        | intv n => rfl
        | pynone => rfl

/-- Claim C4 amended, witness on the empty tree with argument `None`. -/
theorem claim_c4_amended_witness :
    searchPy init PyVal.pynone false = Except.ok false :=
  (claim_c4_amended init PyVal.pynone false (fun _ h => nomatch h)).1 rfl

/-- Claim C5 (code bug): after inserting "cat" and "cats", `Delete("cat")`
raises `AttributeError` (missing `_contains`) instead of returning a boolean;
and even with the missing `_contains` supplied per the spec, the subsequent
`Search("cat", exact=true)` stays true — the terminal flag is correctly
cleared and "cats" survives, but `search` never reads `exact` — where the
claim says it must be false. -/
theorem claim_c5_delete_prefix_word :
    delete (insertList init [['c', 'a', 't'], ['c', 'a', 't', 's']])
        (PyVal.str ['c', 'a', 't']) = Except.error PyErr.attributeError
    ∧ (deleteModelled (insertList init [['c', 'a', 't'], ['c', 'a', 't', 's']])
        ['c', 'a', 't']).2 = true
    ∧ containsSpec
        (deleteModelled (insertList init [['c', 'a', 't'], ['c', 'a', 't', 's']])
          ['c', 'a', 't']).1.root ['c', 'a', 't'] = false
    ∧ search
        (deleteModelled (insertList init [['c', 'a', 't'], ['c', 'a', 't', 's']])
          ['c', 'a', 't']).1 ['c', 'a', 't', 's'] true = true
    ∧ search
        (deleteModelled (insertList init [['c', 'a', 't'], ['c', 'a', 't', 's']])
          ['c', 'a', 't']).1 ['c', 'a', 't'] true = true
    ∧ search
        (deleteModelled (insertList init [['c', 'a', 't'], ['c', 'a', 't', 's']])
          ['c', 'a', 't']).1 ['c', 'a', 't'] false = true := by
  refine ⟨rfl, ?_, ?_, ?_, ?_, ?_⟩ <;>
    simp [insertList, insert, init, search, search_helper, containsSpec,
      deleteModelled, delete_recursive, pyLower, pyStrip,
      insert_character_leaf_nil, insert_character_leaf_cons,
      insert_character_node]

/-- Claim C6: for every word w inserted into a fresh tree and every non-empty
front part p of w, `Search(p, exact=false)` returns true whether or not p was
itself inserted; and `Search("")` is false on every tree. -/
theorem claim_c6_prefix_search :
    (∀ (ws : List (List Char)) (w p : List Char), w ∈ ws → p ≠ [] → p <+: w →
        search (insertList init ws) p false = true)
    ∧ (∀ (t : TernarySearchTree) (ex : Bool), search t [] ex = false) := by
  constructor
  · intro ws w p hw hp hpre
    exact (search_insertList_init ws p false).mpr ⟨w, hw, hp, hpre⟩
  · intro t ex
    rfl

/-- Claim C6, witness: "ca" is found after inserting "cats". -/
theorem claim_c6_witness :
    search (insertList init [['c', 'a', 't', 's']]) ['c', 'a'] false = true :=
  claim_c6_prefix_search.1 [['c', 'a', 't', 's']] ['c', 'a', 't', 's']
    ['c', 'a'] (List.mem_singleton.mpr rfl) (by decide) ⟨['t', 's'], rfl⟩

/-- Claim C7: `Clear()` empties the tree — root absent, `IsEmpty()` true,
`Count()` zero — while `AllWords()` is left as it was. -/
theorem claim_c7_clear (t : TernarySearchTree) :
    (clear t).root = Tree.leaf ∧ is_empty (clear t) = true
    ∧ (clear t).word_count = 0 ∧ all_strings (clear t) = t.words_list :=
  ⟨rfl, rfl, rfl, rfl⟩

/-- Claim C8: inserting the same multiset of words in two orders into fresh
trees yields trees that agree on `Search` for every word and every `exact`
flag, on `Count()`, and on `AllWords()` viewed as a set. -/
theorem claim_c8_insertion_order (ws1 ws2 : List (List Char))
    (hperm : ws1.Perm ws2) :
    (∀ (w : List Char) (ex1 ex2 : Bool),
        search (insertList init ws1) w ex1 = search (insertList init ws2) w ex2)
    ∧ (insertList init ws1).word_count = (insertList init ws2).word_count
    ∧ (∀ w, w ∈ all_strings (insertList init ws1) ↔
              w ∈ all_strings (insertList init ws2)) := by
  have hmem : ∀ w, w ∈ (insertList init ws1).words_list ↔
      w ∈ (insertList init ws2).words_list := by
    intro w
    rw [mem_insertList_words, mem_insertList_words]
    simp [init, hperm.mem_iff]
  refine ⟨?_, ?_, hmem⟩
  · intro w ex1 ex2
    have hiff : search (insertList init ws1) w ex1 = true ↔
        search (insertList init ws2) w ex2 = true := by
      rw [search_insertList_init, search_insertList_init]
      constructor
      · rintro ⟨v, hv, h⟩
        exact ⟨v, hperm.mem_iff.mp hv, h⟩
      · rintro ⟨v, hv, h⟩
        exact ⟨v, hperm.mem_iff.mpr hv, h⟩
    cases hb1 : search (insertList init ws1) w ex1 <;>
      cases hb2 : search (insertList init ws2) w ex2 <;> simp_all
  · have hn1 : (insertList init ws1).words_list.Nodup :=
      nodup_insertList ws1 init (by simp [init])
    have hn2 : (insertList init ws2).words_list.Nodup :=
      nodup_insertList ws2 init (by simp [init])
    have hp : (insertList init ws1).words_list.Perm
        (insertList init ws2).words_list :=
      (List.perm_ext_iff_of_nodup hn1 hn2).mpr hmem
    rw [count_insertList ws1 init (by simp [init]),
      count_insertList ws2 init (by simp [init]), hp.length_eq]

/-- Claim C8, witness at the two insertion orders of the words "a", "b". -/
theorem claim_c8_witness :
    search (insertList init [['a'], ['b']]) ['a'] true
        = search (insertList init [['b'], ['a']]) ['a'] false
    ∧ (insertList init [['a'], ['b']]).word_count
        = (insertList init [['b'], ['a']]).word_count := by
  have h := claim_c8_insertion_order [['a'], ['b']] [['b'], ['a']]
    (List.Perm.swap ['b'] ['a'] [])
  exact ⟨h.1 ['a'] true false, h.2.1⟩

/-- Claim C9: the `exact` parameter has no effect on `Search` — the body
never reads it. -/
theorem claim_c9_exact_irrelevant (t : TernarySearchTree) (w : List Char)
    (ex1 ex2 : Bool) : search t w ex1 = search t w ex2 := by
  cases w <;> rfl

/-- Claim C10: `Delete` with a non-string argument, the empty string, or a
whitespace-only string returns false and leaves the whole state — root,
`Count()` and `AllWords()` — unchanged, raising nothing. -/
theorem claim_c10_delete_invalid (t : TernarySearchTree) (x : PyVal)
    (h : (∀ s, x ≠ PyVal.str s) ∨ x = PyVal.str []
         ∨ ∃ s, x = PyVal.str s ∧ ∀ c ∈ s, c.isWhitespace = true) :
    delete t x = Except.ok (t, false) := by
  rcases h with h | rfl | ⟨s, rfl, hws⟩
  · cases x with
    | str s => exact absurd rfl (h s)
    | intv n => rfl
    | pynone => rfl
  · rfl
  · by_cases hs : s = []
    · subst hs; rfl
    · rw [delete, if_neg hs]
      simp [pyStrip_pyLower_whitespace s hws]

/-- Claim C10, witness: deleting the one-blank string from a fresh tree. -/
theorem claim_c10_witness :
    delete init (PyVal.str [' ']) = Except.ok (init, false) :=
  claim_c10_delete_invalid init (PyVal.str [' '])
    (Or.inr (Or.inr ⟨[' '], rfl, by decide⟩))

end TST
